import Mathlib

/-!
Verification of the GN-model NLI engine (gnpy).

This file gives a shallow embedding, over the real numbers, of the four
computational components of the repository:

* `raised_cosine_comb` — PSD of a WDM comb of raised-cosine channels
  (source: gnpy/__init__.py, `raised_cosine_comb`);
* `fwm_eff` — four-wave-mixing efficiency (source: `fwm_eff`);
* `get_freqarray` — the adaptive (dense + two log-spaced flanks) frequency
  grid (source: `get_freqarray`);
* `GN_integral` — the double-integral engine (source: `GN_integral`).

Machine floats are modelled as real numbers; numpy array operations become
list operations.  Indexing `rs[ind]`, `roll_off[ind]`, `power[ind]` inside
the comb loop is modelled with `List.getD` (default 0), which coincides with
the source whenever the indexed arrays are at least as long as the
center-frequency array — the loop bound in the source is the length of the
center-frequency array alone, so longer companion arrays are silently
truncated, exactly as `getD` renders it.
-/

open Real

noncomputable section

/-- PSD contribution of one raised-cosine channel at query frequency `f`
(the body of the per-channel loop of `raised_cosine_comb`). -/
def rc_channel (f rs roll_off center power : ℝ) : ℝ :=
  let ts := 1 / rs
  let passband := (1 - roll_off) / (2 * ts)
  let stopband := (1 + roll_off) / (2 * ts)
  let g := power / rs
  let ff := |f - center|
  let tf := ff - passband
  if roll_off = 0 then (if tf ≤ 0 then g else 0)
  else g * ((if tf ≤ 0 then (1 : ℝ) else 0) +
    1 / 2 * (1 + Real.cos (Real.pi * ts / roll_off * tf)) *
      (if tf > 0 then (1 : ℝ) else 0) * (if |ff| ≤ stopband then (1 : ℝ) else 0))

/-- PSD of the whole WDM comb at one query frequency: sum of the per-channel
contributions, the loop running over the indices of the center-frequency
array (source `raised_cosine_comb`, vectorised over `f` in the source). -/
def raised_cosine_comb (f : ℝ) (rs roll_off center_freq power : List ℝ) : ℝ :=
  (List.range center_freq.length).foldl
    (fun acc i =>
      acc + rc_channel f (rs.getD i 0) (roll_off.getD i 0) (center_freq.getD i 0)
        (power.getD i 0)) 0

/-- Denominator of the FWM-efficiency quotient, `2a - j 4 pi^2 b2 x`
(source `fwm_eff`). -/
def fwm_denominator (a b2 x : ℝ) : ℂ :=
  (2 * a : ℝ) - Complex.I * ((4 * Real.pi ^ 2 * b2 * x : ℝ) : ℂ)

/-- Four-wave-mixing efficiency
`| (1 - exp(-2 a L + j 4 pi^2 b2 L x)) / (2 a - j 4 pi^2 b2 x) | ^ 2`
at one offset product `x` (source `fwm_eff`, vectorised over `x` there). -/
def fwm_eff (a Lspan b2 x : ℝ) : ℝ :=
  (Complex.abs ((1 - Complex.exp ((-(2 * a * Lspan) : ℝ) +
      Complex.I * ((4 * Real.pi ^ 2 * b2 * Lspan * x : ℝ) : ℂ))) /
    fwm_denominator a b2 x)) ^ 2

/-- Number of points of `np.arange start stop step` for a positive step:
the ceiling of `(stop - start) / step`, clipped at zero. -/
def arangeLen (start stop step : ℝ) : ℕ :=
  (⌈(stop - start) / step⌉).toNat

/-- Model of `np.arange start stop step`: the points `start + i * step` for
`i` below `arangeLen start stop step`. -/
def arange (start stop step : ℝ) : List ℝ :=
  (List.range (arangeLen start stop step)).map (fun i : ℕ => start + (i : ℝ) * step)

/-- Adaptive frequency grid (source `get_freqarray`): a uniformly spaced
dense band `[f_dense_low, f_dense_up)` with step `df_dense`, flanked by two
log-spaced regions whose geometric ratios grow the step from the dense step
towards `max_step`; the branch on the sign of `f` anchors the log expansion
on the side farther from zero.  The ceiling-valued point counts of the
source become `Int.toNat` of a ceiling. -/
def get_freqarray (f Bopt fmax max_step f_dense_low f_dense_up df_dense : ℝ) :
    List ℝ :=
  let f_dense := arange f_dense_low f_dense_up df_dense
  let k := Bopt / 2 / (Bopt / 2 - max_step)
  if f < 0 then
    let Nlog_short : ℕ :=
      (⌈Real.log (fmax / |f_dense_low|) / Real.log k + 1⌉).toNat
    let f1_short := (List.range Nlog_short).map
      (fun i => -(|f_dense_low| * k ^ (Nlog_short - 1 - i)))
    let k2 := (Bopt / 2 + (|f_dense_up| - f_dense_low)) /
      (Bopt / 2 - max_step + (|f_dense_up| - f_dense_up))
    let Nlog_long : ℕ :=
      (⌈Real.log ((fmax + (|f_dense_up| - f_dense_up)) / |f_dense_up|) /
        Real.log k2 + 1⌉).toNat
    let f1_long := (List.range Nlog_long).map
      (fun i => |f_dense_up| * k2 ^ i - (|f_dense_up| - f_dense_up))
    f1_short ++ f_dense.drop 1 ++ f1_long
  else
    let Nlog_short : ℕ :=
      (⌈Real.log (fmax / |f_dense_up|) / Real.log k + 1⌉).toNat
    let f1_short := (List.range Nlog_short).map (fun i => f_dense_up * k ^ i)
    let k2 := (Bopt / 2 + (|f_dense_low| + f_dense_low)) /
      (Bopt / 2 - max_step + (|f_dense_low| + f_dense_low))
    let Nlog_long : ℕ :=
      (⌈Real.log ((fmax + (|f_dense_low| + f_dense_low)) / |f_dense_low|) /
        Real.log k2 + 1⌉).toNat
    let f1_long := (List.range Nlog_long).map
      (fun i => -(|f_dense_low| * k2 ^ (Nlog_long - 1 - i)) +
        (|f_dense_low| + f_dense_low))
    f1_long ++ f_dense.drop 1 ++ f1_short

/-- Trapezoidal rule `np.trapz y x` over matching sample lists. -/
def trapz : List ℝ → List ℝ → ℝ
  | y0 :: y1 :: ys, x0 :: x1 :: xs =>
      (x1 - x0) * (y0 + y1) / 2 + trapz (y1 :: ys) (x1 :: xs)
  | _, _ => 0

/-- Consecutive differences, `np.diff`. -/
def diffList : List ℝ → List ℝ
  | x :: y :: xs => (y - x) :: diffList (y :: xs)
  | _ => []

/-- Maximum of a list, `np.max`.  On an empty array `np.max` raises
ValueError; the total model returns 0 there, and theorems about
`GN_integral` either restrict to channel lists with at least two entries
(nonempty `np.diff`) or model the error explicitly via
`GN_integral_checked`. -/
def listMax : List ℝ → ℝ
  | [] => 0
  | x :: xs => xs.foldl max x

/-- Model parameters of `GN_integral` (the `model_param` dictionary). -/
structure ModelParam where
  min_FWM_inv : ℝ
  n_grid : ℝ
  n_grid_min : ℝ
  f_array : List ℝ

/-- Loss conversion `a_dB / 20 / log10 e` into linear units 1/km
(source `GN_integral`, first line). -/
def alpha_of (a_dB : ℝ) : ℝ := a_dB / 20 / Real.logb 10 (Real.exp 1)

/-- Threshold conversion `10 ^ (min_FWM_inv / 10)` into a linear ratio. -/
def minFWM_of (x : ℝ) : ℝ := (10 : ℝ) ^ (x / 10)

/-- Integration limit computed by `GN_integral`:
`(f_ch[-1] - rs[-1]/2) - (f_ch[0] - rs[0]/2)`. -/
def fmax_of (f_ch rs : List ℝ) : ℝ :=
  (f_ch.getLastD 0 - rs.getLastD 0 / 2) - (f_ch.headD 0 - rs.headD 0 / 2)

/-- Channel spacing `np.max (np.diff f_ch)`. -/
def f2eval_of (f_ch : List ℝ) : ℝ := listMax (diffList f_ch)

/-- Half-width of the high-density region,
`|sqrt(alpha^2 / (4 pi^4 b2^2) * (min_FWM_inv - 1)) / f2eval|`. -/
def f_dense_start_of (alpha b2 minFWM f2eval : ℝ) : ℝ :=
  |Real.sqrt (alpha ^ 2 / (4 * Real.pi ^ 4 * b2 * b2) * (minFWM - 1)) / f2eval|

/-- Dense window of the outer (f1) grid around the evaluation frequency `f`:
clamp the lower edge at `-fmax`, nudge exact-zero edges to one minimum step,
clamp the upper edge at `fmax` (source `GN_integral`, the four `if`
statements before the outer `get_freqarray` call). -/
def dense_window_outer (fmax min_step f_dense_start f : ℝ) : ℝ × ℝ :=
  let lo0 := f - f_dense_start
  let up0 := f + f_dense_start
  let lo1 := if lo0 < -fmax then -fmax else lo0
  let lo2 := if lo1 = 0 then -min_step else lo1
  let up1 := if up0 = 0 then min_step else up0
  let up2 := if up1 > fmax then fmax else up1
  (lo2, up2)

/-- Dense window of an inner (f2) grid: nudge exact-zero edges to one
minimum step first, then clamp to `[-fmax, fmax]` (source `GN_integral`,
the four `if` statements inside the f1 loop). -/
def dense_window_inner (fmax min_step lo0 up0 : ℝ) : ℝ × ℝ :=
  let lo1 := if lo0 = 0 then -min_step else lo0
  let up1 := if up0 = 0 then min_step else up0
  let lo2 := if lo1 < -fmax then -fmax else lo1
  let up2 := if up1 > fmax then fmax else up1
  (lo2, up2)

/-- Phase-matching limit
`sqrt(alpha^2 / (4 pi^4 b2^2) * (minFWM - 1)) / (f1 - f) + f`. -/
def f_lim_of (alpha b2 minFWM f f1 : ℝ) : ℝ :=
  Real.sqrt (alpha ^ 2 / (4 * Real.pi ^ 4 * b2 * b2) * (minFWM - 1)) /
    (f1 - f) + f

/-- Dense window of the inner grid for outer sample `f1`: the full
`[-fmax, fmax]` when `f1 = f`, otherwise `[-|f_lim|, |f_lim|]` adjusted by
`dense_window_inner`. -/
def inner_window (alpha b2 minFWM fmax min_step f f1 : ℝ) : ℝ × ℝ :=
  if f1 = f then (-fmax, fmax)
  else
    let fl := f_lim_of alpha b2 minFWM f f1
    dense_window_inner fmax min_step (min fl (-fl)) (max fl (-fl))

/-- Dense step derived from a window width: `width / ceil (width / min_step)`
(shared by the outer and inner grid constructions). -/
def dense_step (min_step width : ℝ) : ℝ :=
  width / ((⌈width / min_step⌉ : ℤ) : ℝ)

/-- Inner integration grid for outer sample `f1`: the adaptive grid over the
inner dense window, keeping only the points `f2 ≥ f1` (upper triangle). -/
def inner_f2_array (alpha b2 minFWM fmax min_step Bopt max_step f f1 : ℝ) :
    List ℝ :=
  let w := inner_window alpha b2 minFWM fmax min_step f f1
  let width := |w.2 - w.1|
  let df2 := dense_step min_step width
  (get_freqarray f Bopt fmax max_step w.1 w.2 df2).filter (fun x => f1 ≤ x)

/-- Inner integral for outer sample `f1` with comb value `g1` at `f1`:
`2 * trapz (fwm_eff * G2 * G3 * g1) f2` when the filtered inner grid is
non-empty and some product is non-zero, else 0 (source `GN_integral`, body
of the f1 loop). -/
def inner_int (alpha Lspan b2 minFWM fmax min_step Bopt max_step : ℝ)
    (rs roll_off f_ch power : List ℝ) (f f1 g1 : ℝ) : ℝ :=
  let f2a := inner_f2_array alpha b2 minFWM fmax min_step Bopt max_step f f1
  if f2a = [] then 0
  else
    let G := f2a.map (fun x =>
      raised_cosine_comb x rs roll_off f_ch power *
        raised_cosine_comb (f1 + x - f) rs roll_off f_ch power * g1)
    if ∃ g ∈ G, g ≠ 0 then
      2 * trapz
        (List.zipWith (fun gv x => fwm_eff alpha Lspan b2 ((f1 - f) * (x - f)) * gv)
          G f2a) f2a
    else 0

/-- NLI PSD at one evaluation frequency `f` (body of the outer loop of
`GN_integral`): build the outer window and grid, evaluate the comb there,
compute every inner integral, then `16/27 * gam^2 * trapz Gpart f1_array`. -/
def GN_point (b2 Lspan alpha gam minFWM : ℝ) (f_ch rs roll_off power : List ℝ)
    (fmax min_step Bopt max_step f_dense_start : ℝ) (f : ℝ) : ℝ :=
  let w := dense_window_outer fmax min_step f_dense_start f
  let width := |w.2 - w.1|
  let df := dense_step min_step width
  let f1_array := get_freqarray f Bopt fmax max_step w.1 w.2 df
  let G1 := f1_array.map (fun x => raised_cosine_comb x rs roll_off f_ch power)
  let Gpart := List.zipWith
    (fun f1 g1 => inner_int alpha Lspan b2 minFWM fmax min_step Bopt max_step
      rs roll_off f_ch power f f1 g1) f1_array G1
  16 / 27 * gam * gam * trapz Gpart f1_array

/-- Top-level engine (source `GN_integral`): derived scalar parameters, then
one `GN_point` value per entry of `model_param.f_array`, in order. -/
def GN_integral (b2 Lspan a_dB gam : ℝ) (f_ch rs roll_off power : List ℝ)
    (Nch : ℝ) (mp : ModelParam) : List ℝ :=
  let alpha := alpha_of a_dB
  let minFWM := minFWM_of mp.min_FWM_inv
  let fmax := fmax_of f_ch rs
  let f2eval := f2eval_of f_ch
  let Bopt := f2eval * Nch
  let min_step := f2eval / mp.n_grid
  let max_step := f2eval / mp.n_grid_min
  let f_dense_start := f_dense_start_of alpha b2 minFWM f2eval
  mp.f_array.map
    (GN_point b2 Lspan alpha gam minFWM f_ch rs roll_off power fmax min_step
      Bopt max_step f_dense_start)

end

noncomputable section

/-- Formula for the integration limit as claim C3 states it, following the
spec words: full occupied bandwidth minus half of the first and minus half
of the last symbol rate. -/
def fmax_spec (f_ch rs : List ℝ) : ℝ :=
  (f_ch.getLastD 0 - f_ch.headD 0) - rs.headD 0 / 2 - rs.getLastD 0 / 2

/-- Transition-band contribution as claim C2 states it, following the spec
words: cosine argument `pi * tf / (roll_off * (1 / rs))`. -/
def rc_transition_spec (rs roll_off power tf : ℝ) : ℝ :=
  power / rs * (1 / 2 * (1 + Real.cos (Real.pi * tf / (roll_off * (1 / rs)))))

/-- Error-aware engine: `np.max` raises ValueError on an empty array, and
`GN_integral` evaluates `np.max(np.diff(f_ch))` before its main loop, so
the source aborts with no result whenever the channel list has fewer than
two entries (its `np.diff` is empty).  The checked engine returns `none`
exactly there and the total model's value otherwise.  Companion arrays
shorter than the center-frequency array (an IndexError inside
`raised_cosine_comb`, impossible for matching-length inputs) are outside
this model. -/
def GN_integral_checked (b2 Lspan a_dB gam : ℝ)
    (f_ch rs roll_off power : List ℝ) (Nch : ℝ) (mp : ModelParam) :
    Option (List ℝ) :=
  if diffList f_ch = [] then none
  else some (GN_integral b2 Lspan a_dB gam f_ch rs roll_off power Nch mp)

end

/-- Claim C3, counterexample: for channels at 0 and 1 THz with symbol rate
1 TBaud each, the code computes `fmax = (1 - 1/2) - (0 - 1/2) = 1`, while
the claimed formula gives `(1 - 0) - 1/2 - 1/2 = 0`. -/
theorem C3_counterexample : fmax_of [0, 1] [1, 1] ≠ fmax_spec [0, 1] [1, 1] := by
  norm_num [fmax_of, fmax_spec, List.getLastD]

/-- Claim C3, amended: the integration limit equals the occupied bandwidth
minus half the last symbol rate PLUS half the first symbol rate (the code
subtracts the lower band edge `f_ch[0] - rs[0]/2`, so the first guard band
is added, not subtracted). -/
theorem C3_amended (f_ch rs : List ℝ) :
    fmax_of f_ch rs =
      (f_ch.getLastD 0 - f_ch.headD 0) - rs.getLastD 0 / 2 + rs.headD 0 / 2 := by
  unfold fmax_of
  ring

/-- Claim C1, counterexample: with symbol-rate, roll-off and power arrays of
length 3 against a center-frequency array of length 2, and with
`n_grid_min = 2 > 1 = n_grid`, `GN_integral` still computes and returns one
value per requested evaluation frequency — the invalid input is not
rejected and a result is produced. -/
theorem C1_counterexample :
    (GN_integral 1 1 1 1 [0, 1] [1, 1, 1] [0, 0, 0] [1, 1, 1] 2
      ⟨0, 1, 2, [0]⟩).length = 1 := by
  simp [GN_integral]

/-- Claim C9: the engine is a pure function of its arguments — two calls on
identical inputs return identical outputs (the embedding is a total function
with no state, mirroring the source, which reads and writes no global
state). -/
theorem GN_integral_deterministic
    (b2 Lspan a_dB gam : ℝ) (f_ch rs roll_off power : List ℝ) (Nch : ℝ)
    (mp : ModelParam)
    (b2b Lspanb a_dBb gamb : ℝ) (f_chb rsb roll_offb powerb : List ℝ)
    (Nchb : ℝ) (mpb : ModelParam)
    (h1 : b2 = b2b) (h2 : Lspan = Lspanb) (h3 : a_dB = a_dBb) (h4 : gam = gamb)
    (h5 : f_ch = f_chb) (h6 : rs = rsb) (h7 : roll_off = roll_offb)
    (h8 : power = powerb) (h9 : Nch = Nchb) (h10 : mp = mpb) :
    GN_integral b2 Lspan a_dB gam f_ch rs roll_off power Nch mp =
      GN_integral b2b Lspanb a_dBb gamb f_chb rsb roll_offb powerb Nchb mpb := by
  subst h1 h2 h3 h4 h5 h6 h7 h8 h9 h10
  rfl

/-- Witness for claim C9 at a concrete input. -/
theorem GN_integral_deterministic_witness :
    GN_integral 1 1 1 1 [0] [1] [0] [1] 1 ⟨1, 1, 1, [0]⟩ =
      GN_integral 1 1 1 1 [0] [1] [0] [1] 1 ⟨1, 1, 1, [0]⟩ :=
  GN_integral_deterministic 1 1 1 1 [0] [1] [0] [1] 1 ⟨1, 1, 1, [0]⟩
    1 1 1 1 [0] [1] [0] [1] 1 ⟨1, 1, 1, [0]⟩
    rfl rfl rfl rfl rfl rfl rfl rfl rfl rfl
/-- Transition-band unfolding of one channel contribution: for a positive
roll-off, a query in the transition band (`tf > 0`, `ff` at most the
stopband) contributes `g * 1/2 * (1 + cos (pi * (1/rs) / roll_off * tf))`. -/
lemma rc_channel_transition (f rs roll_off center power : ℝ)
    (hro : roll_off ≠ 0)
    (htf : |f - center| - (1 - roll_off) / (2 * (1 / rs)) > 0)
    (hsb : |f - center| ≤ (1 + roll_off) / (2 * (1 / rs))) :
    rc_channel f rs roll_off center power =
      power / rs * (1 / 2 *
        (1 + Real.cos (Real.pi * (1 / rs) / roll_off *
          (|f - center| - (1 - roll_off) / (2 * (1 / rs)))))) := by
  have habs : |(|f - center|)| = |f - center| := abs_abs _
  simp only [rc_channel]
  rw [if_neg hro, if_neg (not_le.mpr htf), if_pos htf, habs, if_pos hsb]
  ring

/-- Claim C2, counterexample: for a channel with `rs = 2`, `roll_off = 1/2`,
`center = 0`, `power = 2`, at query frequency `f = 1` (transition band:
`tf = 1/2 > 0`, `ff = 1` at most the stopband `3/2`), the code contributes
`1/2 * (1 + cos (pi/2)) = 1/2`, while the claimed formula
`g/2 * (1 + cos (pi * tf / (roll_off * (1/rs)))) = 1/2 * (1 + cos (2 pi))`
gives `1`. -/
theorem C2_counterexample :
    rc_channel 1 2 (1 / 2) 0 2 ≠ rc_transition_spec 2 (1 / 2) 2 (1 / 2) := by
  have hL : rc_channel 1 2 (1 / 2) 0 2 = 1 / 2 := by
    rw [rc_channel_transition 1 2 (1 / 2) 0 2 (by norm_num) (by norm_num)
      (by norm_num)]
    have harg : Real.pi * (1 / (2 : ℝ)) / (1 / 2) *
        (|(1 : ℝ) - 0| - (1 - 1 / 2) / (2 * (1 / (2 : ℝ)))) = Real.pi / 2 := by
      rw [show |(1 : ℝ) - 0| = 1 by norm_num]
      ring
    rw [harg, Real.cos_pi_div_two]
    norm_num
  have hR : rc_transition_spec 2 (1 / 2) 2 (1 / 2) = 1 := by
    unfold rc_transition_spec
    have harg : Real.pi * (1 / 2) / ((1 / 2 : ℝ) * (1 / 2)) = 2 * Real.pi := by
      ring
    rw [harg, Real.cos_two_pi]
    norm_num
  rw [hL, hR]
  norm_num

/-- Claim C2, amended: in the transition band the cosine argument multiplies
`tf` by `(1/rs) / roll_off` (equivalently, divides `tf` by
`roll_off * rs`), not by `rs / roll_off` as the claim stated. -/
theorem C2_amended (f rs roll_off center power : ℝ)
    (hro : roll_off ≠ 0)
    (htf : |f - center| - (1 - roll_off) / (2 * (1 / rs)) > 0)
    (hsb : |f - center| ≤ (1 + roll_off) / (2 * (1 / rs))) :
    rc_channel f rs roll_off center power =
      power / rs * (1 / 2 *
        (1 + Real.cos (Real.pi * (1 / rs) / roll_off *
          (|f - center| - (1 - roll_off) / (2 * (1 / rs)))))) :=
  rc_channel_transition f rs roll_off center power hro htf hsb

/-- Witness for claim C2 at the concrete channel of the counterexample. -/
theorem C2_amended_witness :
    rc_channel 1 2 (1 / 2) 0 2 =
      2 / 2 * (1 / 2 *
        (1 + Real.cos (Real.pi * (1 / 2) / (1 / 2) *
          (|(1 : ℝ) - 0| - (1 - 1 / 2) / (2 * (1 / 2)))))) :=
  C2_amended 1 2 (1 / 2) 0 2 (by norm_num) (by norm_num) (by norm_num)

/-- Claim C4, counterexample: with `f2eval = 2`, `n_grid = 2`,
`n_grid_min = 1` (so `min_step = 2/2 = 1` and the coarse
`max_step = 2/1 = 2`), a dense window whose lower edge lands exactly on 0
(`f = 2`, `f_dense_start = 2`, `fmax = 10`) is nudged to
`-min_step = -(2/2)`, which is not the claimed `-max_step = -(2/1)`. -/
theorem C4_counterexample :
    (dense_window_outer 10 (2 / 2) 2 2).1 = -(2 / 2 : ℝ) ∧
      (-(2 / 2 : ℝ)) ≠ -(2 / 1 : ℝ) := by
  constructor
  · norm_num [dense_window_outer]
  · norm_num

/-- Claim C4, amended: a dense-window edge that would be exactly 0 is nudged
to one MINIMUM step (`min_step = f2eval / n_grid`) away from 0 (not one
coarse step `f2eval / n_grid_min`), and an edge beyond `fmax` is clamped to
`fmax`; this holds for the outer window and for each inner window. -/
theorem C4_amended (fmax min_step f_dense_start f lo0 up0 : ℝ)
    (hms : 0 < min_step) (hmsf : min_step ≤ fmax) :
    ((-fmax ≤ f - f_dense_start → f - f_dense_start = 0 →
        (dense_window_outer fmax min_step f_dense_start f).1 = -min_step) ∧
      (f + f_dense_start = 0 →
        (dense_window_outer fmax min_step f_dense_start f).2 = min_step) ∧
      (f - f_dense_start < -fmax →
        (dense_window_outer fmax min_step f_dense_start f).1 = -fmax) ∧
      (f + f_dense_start ≠ 0 → fmax < f + f_dense_start →
        (dense_window_outer fmax min_step f_dense_start f).2 = fmax)) ∧
    ((lo0 = 0 → (dense_window_inner fmax min_step lo0 up0).1 = -min_step) ∧
      (up0 = 0 → (dense_window_inner fmax min_step lo0 up0).2 = min_step) ∧
      (lo0 ≠ 0 → lo0 < -fmax →
        (dense_window_inner fmax min_step lo0 up0).1 = -fmax) ∧
      (up0 ≠ 0 → fmax < up0 →
        (dense_window_inner fmax min_step lo0 up0).2 = fmax)) := by
  have hfmax : 0 < fmax := lt_of_lt_of_le hms hmsf
  refine ⟨⟨?_, ?_, ?_, ?_⟩, ⟨?_, ?_, ?_, ?_⟩⟩
  · intro h1 h2
    simp only [dense_window_outer]
    rw [if_neg (not_lt.mpr (h2 ▸ (neg_nonpos.mpr hfmax.le))), if_pos h2]
  · intro h2
    simp only [dense_window_outer]
    rw [if_pos h2, if_neg (not_lt.mpr hmsf)]
  · intro h1
    simp only [dense_window_outer]
    rw [if_pos h1, if_neg (neg_ne_zero.mpr (ne_of_gt hfmax))]
  · intro h1 h2
    simp only [dense_window_outer]
    rw [if_neg h1, if_pos h2]
  · intro h1
    simp only [dense_window_inner]
    rw [if_pos h1, if_neg (not_lt.mpr (neg_le_neg hmsf))]
  · intro h1
    simp only [dense_window_inner]
    rw [if_pos h1, if_neg (not_lt.mpr hmsf)]
  · intro h1 h2
    simp only [dense_window_inner]
    rw [if_neg h1, if_pos h2]
  · intro h1 h2
    simp only [dense_window_inner]
    rw [if_neg h1, if_pos h2]

/-- Witness for claim C4 at concrete windows: outer window with a zero lower
edge is nudged to `-1 = -min_step`; inner upper edge beyond `fmax` is
clamped to `fmax`. -/
theorem C4_amended_witness :
    (dense_window_outer 10 1 2 2).1 = -1 ∧
      (dense_window_inner 10 1 (-3) 20).2 = 10 :=
  ⟨(C4_amended 10 1 2 2 (-3) 20 (by norm_num) (by norm_num)).1.1 (by norm_num)
      (by norm_num),
    (C4_amended 10 1 2 2 (-3) 20 (by norm_num) (by norm_num)).2.2.2.2
      (by norm_num) (by norm_num)⟩

/-- Nonnegativity of the FWM efficiency: it is a squared complex modulus. -/
lemma fwm_eff_nonneg (a Lspan b2 x : ℝ) : 0 ≤ fwm_eff a Lspan b2 x := by
  unfold fwm_eff
  exact sq_nonneg _

/-- Real part of the FWM denominator. -/
lemma fwm_denominator_re (a b2 x : ℝ) : (fwm_denominator a b2 x).re = 2 * a := by
  unfold fwm_denominator
  rw [Complex.sub_re, Complex.ofReal_re, Complex.mul_re, Complex.I_re,
    Complex.I_im, Complex.ofReal_re, Complex.ofReal_im]
  ring

/-- With positive loss the FWM denominator never vanishes. -/
lemma fwm_denominator_ne_zero (a b2 x : ℝ) (ha : 0 < a) :
    fwm_denominator a b2 x ≠ 0 := by
  intro h
  have hre := fwm_denominator_re a b2 x
  rw [h] at hre
  simp at hre
  linarith

/-- With positive loss the modulus of the FWM denominator is at least `2a`. -/
lemma fwm_denominator_abs (a b2 x : ℝ) (ha : 0 < a) :
    2 * a ≤ Complex.abs (fwm_denominator a b2 x) := by
  have h := Complex.abs_re_le_abs (fwm_denominator a b2 x)
  rw [fwm_denominator_re] at h
  calc 2 * a = |2 * a| := (abs_of_pos (by linarith)).symm
    _ ≤ _ := h

/-- Value of the FWM efficiency at the zero offset product. -/
lemma fwm_eff_zero (a Lspan b2 : ℝ) :
    fwm_eff a Lspan b2 0 =
      ((1 - Real.exp (-(2 * a * Lspan))) / (2 * a)) ^ 2 := by
  unfold fwm_eff fwm_denominator
  rw [show ((4 * Real.pi ^ 2 * b2 * Lspan * 0 : ℝ) : ℂ) = 0 by norm_num]
  rw [show ((4 * Real.pi ^ 2 * b2 * 0 : ℝ) : ℂ) = 0 by norm_num]
  rw [mul_zero, add_zero, sub_zero]
  rw [← Complex.ofReal_exp]
  rw [show (1 : ℂ) - ((Real.exp (-(2 * a * Lspan)) : ℝ) : ℂ) =
    ((1 - Real.exp (-(2 * a * Lspan)) : ℝ) : ℂ) by push_cast; ring]
  rw [← Complex.ofReal_div, Complex.abs_ofReal, sq_abs]

/-- Continuity of the FWM efficiency in the offset product (the denominator
never vanishes when the loss is positive). -/
lemma fwm_eff_continuous (a Lspan b2 : ℝ) (ha : 0 < a) :
    Continuous fun x : ℝ => fwm_eff a Lspan b2 x := by
  unfold fwm_eff
  apply Continuous.pow
  apply Complex.continuous_abs.comp
  apply Continuous.div
  · apply Continuous.sub continuous_const
    apply Complex.continuous_exp.comp
    apply Continuous.add continuous_const
    exact continuous_const.mul (Complex.continuous_ofReal.comp (by continuity))
  · unfold fwm_denominator
    apply Continuous.sub continuous_const
    exact continuous_const.mul (Complex.continuous_ofReal.comp (by continuity))
  · intro x
    exact fwm_denominator_ne_zero a b2 x ha

/-- Claim C8: for positive loss and nonnegative span length, the FWM
efficiency is everywhere nonnegative, tends (as the offset product tends to
0) to its value at 0, and that limit is bounded above by `Lspan ^ 2`. -/
theorem fwm_eff_nonneg_and_limit (a Lspan b2 : ℝ) (ha : 0 < a) (hL : 0 ≤ Lspan) :
    (∀ x, 0 ≤ fwm_eff a Lspan b2 x) ∧
    Filter.Tendsto (fun x => fwm_eff a Lspan b2 x) (nhds 0)
      (nhds (fwm_eff a Lspan b2 0)) ∧
    fwm_eff a Lspan b2 0 ≤ Lspan ^ 2 := by
  refine ⟨fun x => fwm_eff_nonneg a Lspan b2 x,
    (fwm_eff_continuous a Lspan b2 ha).tendsto 0, ?_⟩
  rw [fwm_eff_zero a Lspan b2]
  have h2a : 0 < 2 * a := by linarith
  have hexp : Real.exp (-(2 * a * Lspan)) ≤ 1 := by
    have h := Real.exp_le_exp.mpr (show -(2 * a * Lspan) ≤ 0 by nlinarith)
    rwa [Real.exp_zero] at h
  have hnum1 : 1 - Real.exp (-(2 * a * Lspan)) ≤ 2 * a * Lspan := by
    have h := Real.add_one_le_exp (-(2 * a * Lspan))
    linarith
  have hq0 : 0 ≤ (1 - Real.exp (-(2 * a * Lspan))) / (2 * a) :=
    div_nonneg (by linarith) h2a.le
  have hq1 : (1 - Real.exp (-(2 * a * Lspan))) / (2 * a) ≤ Lspan := by
    rw [div_le_iff₀ h2a]
    nlinarith
  exact pow_le_pow_left₀ hq0 hq1 2

/-- Witness for claim C8 at `a = 1`, `Lspan = 1`, `b2 = 1`. -/
theorem fwm_eff_nonneg_and_limit_witness :
    (∀ x, 0 ≤ fwm_eff 1 1 1 x) ∧
    Filter.Tendsto (fun x => fwm_eff 1 1 1 x) (nhds 0)
      (nhds (fwm_eff 1 1 1 0)) ∧
    fwm_eff 1 1 1 0 ≤ 1 ^ 2 :=
  fwm_eff_nonneg_and_limit 1 1 1 (by norm_num) (by norm_num)

/-- Claim C10: for positive loss the FWM denominator is nonzero with modulus
at least `2a` at every offset product (so the division needs no special
case), and at offset product 0 the efficiency equals
`((1 - exp (-2 a Lspan)) / (2 a)) ^ 2`. -/
theorem fwm_denominator_sound (a Lspan b2 x : ℝ) (ha : 0 < a) :
    fwm_denominator a b2 x ≠ 0 ∧
    2 * a ≤ Complex.abs (fwm_denominator a b2 x) ∧
    fwm_eff a Lspan b2 0 =
      ((1 - Real.exp (-(2 * a * Lspan))) / (2 * a)) ^ 2 :=
  ⟨fwm_denominator_ne_zero a b2 x ha, fwm_denominator_abs a b2 x ha,
    fwm_eff_zero a Lspan b2⟩

/-- Witness for claim C10 at `a = 1`, `Lspan = 1`, `b2 = 1`, `x = 1`. -/
theorem fwm_denominator_sound_witness :
    fwm_denominator 1 1 1 ≠ 0 ∧
    2 * 1 ≤ Complex.abs (fwm_denominator 1 1 1) ∧
    fwm_eff 1 1 1 0 = ((1 - Real.exp (-(2 * 1 * 1))) / (2 * 1)) ^ 2 :=
  fwm_denominator_sound 1 1 1 1 (by norm_num)

/-- Truncation of the companion arrays to the center-frequency length does
not change the comb: the loop bound is the center-frequency count alone. -/
lemma raised_cosine_comb_take (f : ℝ) (rs roll_off center_freq power : List ℝ) :
    raised_cosine_comb f (rs.take center_freq.length)
        (roll_off.take center_freq.length) center_freq
        (power.take center_freq.length) =
      raised_cosine_comb f rs roll_off center_freq power := by
  unfold raised_cosine_comb
  apply List.foldl_ext
  intro acc i hi
  rw [List.mem_range] at hi
  have h1 : ∀ l : List ℝ, (l.take center_freq.length).getD i 0 = l.getD i 0 := by
    intro l
    simp only [List.getD_eq_getElem?_getD, List.getElem?_take]
    rw [if_pos hi]
  rw [h1, h1, h1]

/-- Claim C1, amended: `GN_integral` performs no input validation on any
input in the model's faithful domain — at least two channels, and companion
arrays (symbol rate, roll-off, power) at least as long as the
center-frequency array, in particular strictly longer (a length mismatch),
with arbitrary grid parameters, `n_grid_min > n_grid` included.  No such
input is rejected: one value per requested evaluation frequency is computed
and returned, and companion entries beyond the center-frequency length are
silently ignored, because the comb loop is bounded by the center-frequency
count alone.  (Companion arrays SHORTER than the center-frequency array
instead make the source raise IndexError mid-computation — also not the
claimed up-front InvalidInput — and are outside this total model.) -/
theorem GN_integral_no_validation (b2 Lspan a_dB gam : ℝ)
    (f_ch rs roll_off power : List ℝ) (Nch : ℝ) (mp : ModelParam) (f : ℝ)
    (hch : 2 ≤ f_ch.length) (hlen_rs : f_ch.length ≤ rs.length)
    (hlen_ro : f_ch.length ≤ roll_off.length)
    (hlen_pw : f_ch.length ≤ power.length) :
    (GN_integral b2 Lspan a_dB gam f_ch rs roll_off power Nch mp).length =
      mp.f_array.length ∧
    raised_cosine_comb f (rs.take f_ch.length) (roll_off.take f_ch.length)
        f_ch (power.take f_ch.length) =
      raised_cosine_comb f rs roll_off f_ch power := by
  constructor
  · simp [GN_integral]
  · exact raised_cosine_comb_take f rs roll_off f_ch power

/-- Witness for claim C1's amended theorem at the counterexample's input:
two channels, three-entry companion arrays, `n_grid_min = 2 > 1 = n_grid`. -/
theorem GN_integral_no_validation_witness :
    (GN_integral 1 1 1 1 [0, 1] [1, 1, 1] [0, 0, 0] [1, 1, 1] 2
      ⟨0, 1, 2, [0]⟩).length = 1 ∧
    raised_cosine_comb 0 ([1, 1, 1].take 2) ([0, 0, 0].take 2) [0, 1]
        ([1, 1, 1].take 2) =
      raised_cosine_comb 0 [1, 1, 1] [0, 0, 0] [0, 1] [1, 1, 1] :=
  GN_integral_no_validation 1 1 1 1 [0, 1] [1, 1, 1] [0, 0, 0] [1, 1, 1] 2
    ⟨0, 1, 2, [0]⟩ 0 (by norm_num) (by norm_num) (by norm_num) (by norm_num)

/-- Claim C7: when the inner grid is empty after discarding points below
`f1`, the contribution of that `f1` is exactly zero (the partial-result
entry keeps its preallocated 0), and no error arises — the function is
total. -/
theorem inner_int_empty_zero (alpha Lspan b2 minFWM fmax min_step Bopt max_step : ℝ)
    (rs roll_off f_ch power : List ℝ) (f f1 g1 : ℝ)
    (h : inner_f2_array alpha b2 minFWM fmax min_step Bopt max_step f f1 = []) :
    inner_int alpha Lspan b2 minFWM fmax min_step Bopt max_step
      rs roll_off f_ch power f f1 g1 = 0 := by
  simp [inner_int, h]

/-- Witness for claim C7: with `alpha = b2 = 1`, linear FWM threshold 1,
`fmax = min_step = 1`, `Bopt = 4`, `max_step = 1`, evaluation frequency
`f = 0` and outer sample `f1 = 5`, the inner grid is `[-1, 0, 1]` and the
filter `f2 ≥ 5` empties it, so the contribution is 0. -/
theorem inner_int_empty_zero_witness :
    inner_int 1 1 1 1 1 1 4 1 [] [] [] [] 0 5 0 = 0 := by
  apply inner_int_empty_zero
  have hw : inner_window 1 1 1 1 1 0 5 = (-1, 1) := by
    unfold inner_window
    rw [if_neg (by norm_num : (5 : ℝ) ≠ 0)]
    have hfl : f_lim_of 1 1 1 0 5 = 0 := by
      unfold f_lim_of
      norm_num
    rw [hfl]
    norm_num [dense_window_inner]
  have hg : get_freqarray 0 4 1 1 (-1) 1 1 = [-1, 0, 1] := by
    unfold get_freqarray arange arangeLen
    norm_num [Real.log_one]
    rw [show Int.toNat 2 = 2 from rfl]
    simp [List.range_succ]
  have hd : dense_step 1 2 = 1 := by
    unfold dense_step
    norm_num
  unfold inner_f2_array
  rw [hw]
  norm_num [hd, hg, List.filter]

/-- Membership in a mapped range. -/
lemma mem_map_range {g : ℕ → ℝ} {N : ℕ} {x : ℝ}
    (h : x ∈ (List.range N).map g) : ∃ i, i < N ∧ x = g i := by
  rcases List.mem_map.mp h with ⟨i, hi, rfl⟩
  exact ⟨i, List.mem_range.mp hi, rfl⟩

/-- Strict increase of a mapped range from an index-monotonicity fact. -/
lemma pairwise_lt_map_range {g : ℕ → ℝ} {N : ℕ}
    (h : ∀ i j, i < j → j < N → g i < g j) :
    ((List.range N).map g).Pairwise (· < ·) := by
  rw [List.pairwise_map, List.pairwise_iff_getElem]
  intro i j hi hj hij
  simp only [List.length_range] at hi hj
  simp only [List.getElem_range]
  exact h i j hij hj

/-- Glueing three strictly increasing regions separated by the dense-band
edges into one strictly increasing list. -/
lemma pairwise_glue {A M B : List ℝ} {lo up : ℝ} (hlu : lo < up)
    (hA : A.Pairwise (· < ·)) (hM : M.Pairwise (· < ·))
    (hB : B.Pairwise (· < ·))
    (hAle : ∀ a ∈ A, a ≤ lo) (hMlo : ∀ x ∈ M, lo < x)
    (hMup : ∀ x ∈ M, x < up) (hBge : ∀ b ∈ B, up ≤ b) :
    (A ++ M ++ B).Pairwise (· < ·) := by
  rw [List.pairwise_append]
  refine ⟨?_, hB, ?_⟩
  · rw [List.pairwise_append]
    exact ⟨hA, hM, fun a ha x hx => lt_of_le_of_lt (hAle a ha) (hMlo x hx)⟩
  · intro a ha b hb
    rcases List.mem_append.mp ha with h | h
    · exact lt_of_le_of_lt (hAle a h) (lt_of_lt_of_le hlu (hBge b hb))
    · exact lt_of_lt_of_le (hMup a h) (hBge b hb)

/-- Dropping the head of a range. -/
lemma range_drop_one (n : ℕ) :
    (List.range n).drop 1 = (List.range (n - 1)).map Nat.succ := by
  cases n with
  | zero => rfl
  | succ m =>
    rw [List.range_succ_eq_map]
    rfl

/-- Points of the dense band are strictly increasing. -/
lemma arange_pairwise {lo up df : ℝ} (hdf : 0 < df) :
    (arange lo up df).Pairwise (· < ·) := by
  unfold arange
  apply pairwise_lt_map_range
  intro i j hij _
  have hc : (i : ℝ) < j := by exact_mod_cast hij
  nlinarith

/-- Members of the dense band with the first point removed. -/
lemma mem_arange_drop_one {lo up df x : ℝ}
    (h : x ∈ (arange lo up df).drop 1) :
    ∃ i : ℕ, 1 ≤ i ∧ i < arangeLen lo up df ∧ x = lo + i * df := by
  unfold arange at h
  rw [← List.map_drop, range_drop_one, List.map_map] at h
  rcases mem_map_range h with ⟨i, hi, rfl⟩
  refine ⟨i + 1, by omega, by omega, ?_⟩
  simp [Function.comp, Nat.succ_eq_add_one]

/-- Dense-band points lie strictly below the upper edge. -/
lemma arange_index_lt_up {lo up df : ℝ} (hdf : 0 < df) {i : ℕ}
    (hi : i < arangeLen lo up df) : lo + i * df < up := by
  have hceil : 0 < ⌈(up - lo) / df⌉ := by
    unfold arangeLen at hi
    omega
  have heq : (arangeLen lo up df : ℤ) = ⌈(up - lo) / df⌉ := by
    unfold arangeLen
    omega
  have hlt : ((arangeLen lo up df : ℝ)) < (up - lo) / df + 1 := by
    have h1 := Int.ceil_lt_add_one ((up - lo) / df)
    have h2 : ((arangeLen lo up df : ℝ)) = ((⌈(up - lo) / df⌉ : ℤ) : ℝ) := by
      exact_mod_cast heq
    rw [h2]
    linarith
  have hile : (i : ℝ) ≤ (arangeLen lo up df : ℝ) - 1 := by
    have : (i : ℝ) + 1 ≤ (arangeLen lo up df : ℝ) := by exact_mod_cast hi
    linarith
  have hfin : (i : ℝ) < (up - lo) / df := by linarith
  have := (lt_div_iff₀ hdf).mp hfin
  linarith

/-- Strictly increasing geometric ramp `c * k ^ i`. -/
lemma pairwise_geom_up {c k : ℝ} {N : ℕ} (hc : 0 < c) (hk : 1 < k) :
    ((List.range N).map (fun i => c * k ^ i)).Pairwise (· < ·) := by
  apply pairwise_lt_map_range
  intro i j hij _
  have he := pow_lt_pow_right₀ hk hij
  nlinarith

/-- Strictly increasing shifted geometric ramp `c * k ^ i - t`. -/
lemma pairwise_geom_up_shift {c t k : ℝ} {N : ℕ} (hc : 0 < c) (hk : 1 < k) :
    ((List.range N).map (fun i => c * k ^ i - t)).Pairwise (· < ·) := by
  apply pairwise_lt_map_range
  intro i j hij _
  have he := pow_lt_pow_right₀ hk hij
  nlinarith

/-- Strictly increasing mirrored ramp `-(c * k ^ (N - 1 - i))`. -/
lemma pairwise_geom_down {c k : ℝ} {N : ℕ} (hc : 0 < c) (hk : 1 < k) :
    ((List.range N).map (fun i => -(c * k ^ (N - 1 - i)))).Pairwise (· < ·) := by
  apply pairwise_lt_map_range
  intro i j hij hj
  have he : N - 1 - j < N - 1 - i := by omega
  have hp := pow_lt_pow_right₀ hk he
  nlinarith

/-- Strictly increasing shifted mirrored ramp `-(c * k ^ (N - 1 - i)) + t`. -/
lemma pairwise_geom_down_shift {c t k : ℝ} {N : ℕ} (hc : 0 < c) (hk : 1 < k) :
    ((List.range N).map
      (fun i => -(c * k ^ (N - 1 - i)) + t)).Pairwise (· < ·) := by
  apply pairwise_lt_map_range
  intro i j hij hj
  have he : N - 1 - j < N - 1 - i := by omega
  have hp := pow_lt_pow_right₀ hk he
  nlinarith

/-- Geometric ramp values stay at or above the base. -/
lemma le_geom_up {c k : ℝ} (hc : 0 < c) (hk : 1 ≤ k) (e : ℕ) :
    c ≤ c * k ^ e := by
  have h1 : (1 : ℝ) ≤ k ^ e := one_le_pow₀ hk
  nlinarith

/-- Mirrored ramp values stay at or below the negated base. -/
lemma edge_geom_down {c k : ℝ} (hc : 0 < c) (hk : 1 ≤ k) (e : ℕ) :
    -(c * k ^ e) ≤ -c := by
  have h1 : (1 : ℝ) ≤ k ^ e := one_le_pow₀ hk
  nlinarith

/-- Strict monotonicity of the adaptive grid: with ordered step bounds
(`0 < max_step < Bopt/2`), a dense window of positive width, a positive
dense step, and edges obeying the sign conventions that the engine's window
construction establishes (`up > 0` and `lo ≠ 0` when `f ≥ 0`; `lo < 0` and
`up ≠ 0` when `f < 0`), the whole concatenated grid is strictly
increasing. -/
lemma get_freqarray_sorted (f Bopt fmax max_step lo up df : ℝ)
    (hms : 0 < max_step) (hBm : max_step < Bopt / 2)
    (hlu : lo < up) (hdf : 0 < df)
    (hpos : 0 ≤ f → 0 < up ∧ lo ≠ 0)
    (hneg : f < 0 → lo < 0 ∧ up ≠ 0) :
    (get_freqarray f Bopt fmax max_step lo up df).Pairwise (· < ·) := by
  have hd : 0 < Bopt / 2 - max_step := by linarith
  have hk : 1 < Bopt / 2 / (Bopt / 2 - max_step) := by
    rw [one_lt_div hd]
    linarith
  have hM : ((arange lo up df).drop 1).Pairwise (· < ·) :=
    (arange_pairwise hdf).sublist (List.drop_sublist 1 _)
  have hMlo : ∀ x ∈ (arange lo up df).drop 1, lo < x := by
    intro x hx
    rcases mem_arange_drop_one hx with ⟨i, h1, _, rfl⟩
    have hc : (1 : ℝ) ≤ (i : ℝ) := by exact_mod_cast h1
    nlinarith
  have hMup : ∀ x ∈ (arange lo up df).drop 1, x < up := by
    intro x hx
    rcases mem_arange_drop_one hx with ⟨i, _, h2, rfl⟩
    exact arange_index_lt_up hdf h2
  simp only [get_freqarray]
  by_cases hf : f < 0
  · rw [if_pos hf]
    obtain ⟨hlo_neg, hup_ne⟩ := hneg hf
    have hlo_abs : 0 < |lo| := abs_pos.mpr (ne_of_lt hlo_neg)
    have hup_abs : 0 < |up| := abs_pos.mpr hup_ne
    have ht : 0 ≤ |up| - up := by linarith [le_abs_self up]
    have hden2 : 0 < Bopt / 2 - max_step + (|up| - up) := by linarith
    have hk2 : 1 < (Bopt / 2 + (|up| - lo)) /
        (Bopt / 2 - max_step + (|up| - up)) := by
      rw [one_lt_div hden2]
      linarith
    apply pairwise_glue hlu
    · exact pairwise_geom_down hlo_abs hk
    · exact hM
    · exact pairwise_geom_up_shift hup_abs hk2
    · intro a ha
      rcases mem_map_range ha with ⟨i, _, rfl⟩
      refine le_trans (edge_geom_down hlo_abs hk.le _) ?_
      have h2 : |lo| = -lo := abs_of_neg hlo_neg
      linarith
    · exact hMlo
    · exact hMup
    · intro b hb
      rcases mem_map_range hb with ⟨i, _, rfl⟩
      have h3 := le_geom_up hup_abs hk2.le i
      have h4 : up ≤ |up| := le_abs_self up
      linarith
  · rw [if_neg hf]
    obtain ⟨hup_pos, hlo_ne⟩ := hpos (not_lt.mp hf)
    have hlo_abs : 0 < |lo| := abs_pos.mpr hlo_ne
    have hs : 0 ≤ |lo| + lo := by linarith [neg_abs_le lo]
    have hden2 : 0 < Bopt / 2 - max_step + (|lo| + lo) := by linarith
    have hk2 : 1 < (Bopt / 2 + (|lo| + lo)) /
        (Bopt / 2 - max_step + (|lo| + lo)) := by
      rw [one_lt_div hden2]
      linarith
    apply pairwise_glue hlu
    · exact pairwise_geom_down_shift hlo_abs hk2
    · exact hM
    · exact pairwise_geom_up hup_pos hk
    · intro a ha
      rcases mem_map_range ha with ⟨i, _, rfl⟩
      have h3 := edge_geom_down hlo_abs hk2.le
        ((⌈Real.log ((fmax + (|lo| + lo)) / |lo|) /
          Real.log ((Bopt / 2 + (|lo| + lo)) /
            (Bopt / 2 - max_step + (|lo| + lo))) + 1⌉).toNat - 1 - i)
      have h4 : -|lo| ≤ lo := neg_abs_le lo
      linarith
    · exact hMlo
    · exact hMup
    · intro b hb
      rcases mem_map_range hb with ⟨i, _, rfl⟩
      exact le_geom_up hup_pos hk.le i

/-- Claim C5: for valid inputs as produced by the engine (dense window of
positive width inside `[-fmax, fmax]`, dense step positive and no larger
than the window, `0 < max_step < Bopt/2`, and the sign conventions the
engine's window adjustment establishes), the grid generator returns a
strictly increasing frequency array — in particular with no duplicate
points at the dense/log seams. -/
theorem get_freqarray_strictly_increasing (f Bopt fmax max_step lo up df : ℝ)
    (hms : 0 < max_step) (hBm : max_step < Bopt / 2)
    (hwin : -fmax ≤ lo ∧ up ≤ fmax)
    (hlu : lo < up) (hdf : 0 < df) (hdfw : df ≤ up - lo)
    (hpos : 0 ≤ f → 0 < up ∧ lo ≠ 0)
    (hneg : f < 0 → lo < 0 ∧ up ≠ 0) :
    (get_freqarray f Bopt fmax max_step lo up df).Pairwise (· < ·) :=
  get_freqarray_sorted f Bopt fmax max_step lo up df hms hBm hlu hdf hpos hneg

/-- Witness for claim C5 at a concrete grid request. -/
theorem get_freqarray_strictly_increasing_witness :
    (get_freqarray 0 4 2 1 (-1) 1 1).Pairwise (· < ·) :=
  get_freqarray_strictly_increasing 0 4 2 1 (-1) 1 1 (by norm_num) (by norm_num)
    ⟨by norm_num, by norm_num⟩ (by norm_num) (by norm_num) (by norm_num)
    (fun _ => ⟨by norm_num, by norm_num⟩) (fun h => absurd h (by norm_num))

/-- Trapezoid sums over an increasing abscissa list with nonnegative
ordinates are nonnegative. -/
lemma trapz_nonneg (ys : List ℝ) : ∀ xs : List ℝ, xs.Pairwise (· ≤ ·) →
    (∀ y ∈ ys, 0 ≤ y) → 0 ≤ trapz ys xs := by
  induction ys with
  | nil => intro xs _ _; simp [trapz]
  | cons y0 ys ih =>
    intro xs hx hy
    cases ys with
    | nil => simp [trapz]
    | cons y1 ys2 =>
      cases xs with
      | nil => simp [trapz]
      | cons x0 xs2 =>
        cases xs2 with
        | nil => simp [trapz]
        | cons x1 xs3 =>
          have hx01 : x0 ≤ x1 := (List.pairwise_cons.mp hx).1 x1 (by simp)
          have hy0 : 0 ≤ y0 := hy y0 (by simp)
          have hy1 : 0 ≤ y1 := hy y1 (by simp)
          have hrec : 0 ≤ trapz (y1 :: ys2) (x1 :: xs3) := by
            apply ih (x1 :: xs3) (List.pairwise_cons.mp hx).2
            intro y hmem
            exact hy y (by simp [hmem])
          have hstep : 0 ≤ (x1 - x0) * (y0 + y1) / 2 := by
            apply div_nonneg _ (by norm_num)
            apply mul_nonneg (by linarith) (by linarith)
          calc (0 : ℝ) ≤ (x1 - x0) * (y0 + y1) / 2 + trapz (y1 :: ys2) (x1 :: xs3) := by
                linarith
            _ = trapz (y0 :: y1 :: ys2) (x0 :: x1 :: xs3) := rfl

/-- Members of a zipWith come from members of the two lists. -/
lemma mem_zipWith {α β γ : Type} {h : α → β → γ} {l1 : List α} {l2 : List β}
    {x : γ} (hx : x ∈ List.zipWith h l1 l2) :
    ∃ a ∈ l1, ∃ b ∈ l2, x = h a b := by
  induction l1 generalizing l2 with
  | nil => simp at hx
  | cons a l1 ih =>
    cases l2 with
    | nil => simp at hx
    | cons b l2 =>
      rcases List.mem_cons.mp hx with h1 | h1
      · exact ⟨a, by simp, b, by simp, h1⟩
      · rcases ih h1 with ⟨a1, ha1, b1, hb1, rfl⟩
        exact ⟨a1, by simp [ha1], b1, by simp [hb1], rfl⟩

/-- Defaulted indexing into a list of nonnegative reals is nonnegative. -/
lemma getD_nonneg (l : List ℝ) (h : ∀ x ∈ l, 0 ≤ x) (i : ℕ) :
    0 ≤ l.getD i 0 := by
  induction l generalizing i with
  | nil => simp
  | cons a l ih =>
    cases i with
    | zero => simpa using h a (by simp)
    | succ j =>
      rw [List.getD_cons_succ]
      exact ih (fun x hx => h x (by simp [hx])) j

/-- Left folds that only add nonnegative contributions stay nonnegative. -/
lemma foldl_add_nonneg (g : ℕ → ℝ) (l : List ℕ) :
    ∀ acc : ℝ, 0 ≤ acc → (∀ i ∈ l, 0 ≤ g i) →
    0 ≤ l.foldl (fun a i => a + g i) acc := by
  induction l with
  | nil => intro acc hacc _; simpa using hacc
  | cons i l ih =>
    intro acc hacc hg
    rw [List.foldl_cons]
    apply ih
    · have := hg i (by simp)
      linarith
    · intro j hj
      exact hg j (by simp [hj])

/-- One channel of the comb contributes a nonnegative PSD whenever its
symbol rate and power are nonnegative. -/
lemma rc_channel_nonneg (f rs roll_off center power : ℝ)
    (hrs : 0 ≤ rs) (hpw : 0 ≤ power) :
    0 ≤ rc_channel f rs roll_off center power := by
  have hg : 0 ≤ power / rs := div_nonneg hpw hrs
  have hind : ∀ p : Prop, ∀ inst : Decidable p, 0 ≤ @ite ℝ p inst 1 0 := by
    intro p inst
    split <;> norm_num
  have hcos : ∀ z : ℝ, 0 ≤ 1 + Real.cos z := by
    intro z
    linarith [Real.neg_one_le_cos z]
  simp only [rc_channel]
  split
  · split
    · exact hg
    · exact le_refl 0
  · apply mul_nonneg hg
    apply add_nonneg (hind _ _)
    apply mul_nonneg
    · apply mul_nonneg
      · apply mul_nonneg (by norm_num) (hcos _)
      · exact hind _ _
    · exact hind _ _

/-- The comb PSD is nonnegative when all symbol rates and powers are. -/
lemma raised_cosine_comb_nonneg (f : ℝ) (rs roll_off center_freq power : List ℝ)
    (hrs : ∀ x ∈ rs, 0 ≤ x) (hpw : ∀ x ∈ power, 0 ≤ x) :
    0 ≤ raised_cosine_comb f rs roll_off center_freq power := by
  unfold raised_cosine_comb
  apply foldl_add_nonneg
    (fun i => rc_channel f (rs.getD i 0) (roll_off.getD i 0)
      (center_freq.getD i 0) (power.getD i 0))
  · exact le_refl 0
  · intro i _
    exact rc_channel_nonneg _ _ _ _ _ (getD_nonneg rs hrs i) (getD_nonneg power hpw i)

/-- The derived dense step is positive and no larger than the width. -/
lemma dense_step_pos_le {min_step w : ℝ} (hms : 0 < min_step) (hw : 0 < w) :
    0 < dense_step min_step w ∧ dense_step min_step w ≤ w := by
  unfold dense_step
  have hz : 0 < w / min_step := div_pos hw hms
  have hc : 0 < ⌈w / min_step⌉ := Int.ceil_pos.mpr hz
  have hc1 : (1 : ℝ) ≤ ((⌈w / min_step⌉ : ℤ) : ℝ) := by exact_mod_cast hc
  exact ⟨div_pos hw (by linarith), div_le_self hw.le hc1⟩

/-- The adjusted inner dense window has a negative lower edge and a positive
upper edge whenever it starts from `lo0 ≤ 0 ≤ up0`. -/
lemma dense_window_inner_spec (fmax min_step lo0 up0 : ℝ)
    (hms : 0 < min_step) (hfmax : 0 < fmax) (hlo : lo0 ≤ 0) (hup : 0 ≤ up0) :
    (dense_window_inner fmax min_step lo0 up0).1 < 0 ∧
      0 < (dense_window_inner fmax min_step lo0 up0).2 := by
  simp only [dense_window_inner]
  split_ifs <;> constructor <;>
    first
      | linarith
      | (exact lt_of_le_of_ne hlo (by assumption))
      | (exact lt_of_le_of_ne hup (Ne.symm (by assumption)))

/-- The adjusted outer dense window is nonempty and respects the sign
conventions required by the grid generator, provided the evaluation
frequency is not further than `f_dense_start` beyond the band edge. -/
lemma dense_window_outer_spec (fmax min_step s f : ℝ)
    (hs : 0 < s) (hms : 0 < min_step) (hfmax : 0 < fmax)
    (h1 : -fmax < f + s) (h2 : f - s < fmax) :
    (dense_window_outer fmax min_step s f).1 <
        (dense_window_outer fmax min_step s f).2 ∧
      (0 ≤ f → 0 < (dense_window_outer fmax min_step s f).2 ∧
        (dense_window_outer fmax min_step s f).1 ≠ 0) ∧
      (f < 0 → (dense_window_outer fmax min_step s f).1 < 0 ∧
        (dense_window_outer fmax min_step s f).2 ≠ 0) := by
  simp only [dense_window_outer]
  split_ifs <;>
    refine ⟨?_, fun hf => ⟨?_, ?_⟩, fun hf => ⟨?_, ?_⟩⟩ <;>
    first
      | linarith
      | assumption
      | (apply ne_of_lt; linarith)
      | (apply ne_of_gt; linarith)

/-- The inner dense window always has a negative lower and positive upper
edge (full band when `f1 = f`, adjusted `[-|f_lim|, |f_lim|]` otherwise). -/
lemma inner_window_spec (alpha b2 minFWM fmax min_step f f1 : ℝ)
    (hms : 0 < min_step) (hfmax : 0 < fmax) :
    (inner_window alpha b2 minFWM fmax min_step f f1).1 < 0 ∧
      0 < (inner_window alpha b2 minFWM fmax min_step f f1).2 := by
  unfold inner_window
  split
  · constructor
    · show -fmax < 0
      linarith
    · show 0 < fmax
      linarith
  · apply dense_window_inner_spec _ _ _ _ hms hfmax
    · rcases le_total 0 (f_lim_of alpha b2 minFWM f f1) with h | h
      · exact le_trans (min_le_right _ _) (by linarith)
      · exact le_trans (min_le_left _ _) h
    · rcases le_total 0 (f_lim_of alpha b2 minFWM f f1) with h | h
      · exact le_trans h (le_max_left _ _)
      · exact le_trans (by linarith : (0 : ℝ) ≤ -f_lim_of alpha b2 minFWM f f1)
          (le_max_right _ _)

/-- The filtered inner grid is strictly increasing. -/
lemma inner_f2_array_sorted (alpha b2 minFWM fmax min_step Bopt max_step f f1 : ℝ)
    (hms : 0 < min_step) (hfmax : 0 < fmax)
    (hmax : 0 < max_step) (hBm : max_step < Bopt / 2) :
    (inner_f2_array alpha b2 minFWM fmax min_step Bopt max_step f f1).Pairwise
      (· < ·) := by
  simp only [inner_f2_array]
  apply List.Pairwise.filter
  obtain ⟨hlo, hup⟩ := inner_window_spec alpha b2 minFWM fmax min_step f f1 hms hfmax
  have hwidth : 0 < |(inner_window alpha b2 minFWM fmax min_step f f1).2 -
      (inner_window alpha b2 minFWM fmax min_step f f1).1| :=
    abs_pos.mpr (by linarith)
  obtain ⟨hdf, _⟩ := dense_step_pos_le hms hwidth
  exact get_freqarray_sorted f Bopt fmax max_step _ _ _ hmax hBm (by linarith) hdf
    (fun _ => ⟨hup, ne_of_lt hlo⟩) (fun _ => ⟨hlo, ne_of_gt hup⟩)

/-- Every inner integral is nonnegative for nonnegative channel data. -/
lemma inner_int_nonneg (alpha Lspan b2 minFWM fmax min_step Bopt max_step : ℝ)
    (rs roll_off f_ch power : List ℝ) (f f1 g1 : ℝ)
    (hms : 0 < min_step) (hfmax : 0 < fmax)
    (hmax : 0 < max_step) (hBm : max_step < Bopt / 2)
    (hrs : ∀ x ∈ rs, 0 ≤ x) (hpw : ∀ x ∈ power, 0 ≤ x) (hg1 : 0 ≤ g1) :
    0 ≤ inner_int alpha Lspan b2 minFWM fmax min_step Bopt max_step
      rs roll_off f_ch power f f1 g1 := by
  have hsorted := inner_f2_array_sorted alpha b2 minFWM fmax min_step Bopt
    max_step f f1 hms hfmax hmax hBm
  simp only [inner_int]
  split
  · exact le_refl 0
  · split
    · apply mul_nonneg (by norm_num)
      apply trapz_nonneg
      · exact hsorted.imp (fun hab => le_of_lt hab)
      · intro y hy
        rcases mem_zipWith hy with ⟨gv, hgv, x, hx, rfl⟩
        apply mul_nonneg (fwm_eff_nonneg _ _ _ _)
        rcases List.mem_map.mp hgv with ⟨z, hz, rfl⟩
        exact mul_nonneg (mul_nonneg
          (raised_cosine_comb_nonneg _ _ _ _ _ hrs hpw)
          (raised_cosine_comb_nonneg _ _ _ _ _ hrs hpw)) hg1
    · exact le_refl 0

/-- The NLI PSD at one evaluation frequency is nonnegative for nonnegative
channel data, positive step bounds, and an evaluation frequency within one
dense half-width of the band. -/
lemma GN_point_nonneg (b2 Lspan alpha gam minFWM : ℝ)
    (f_ch rs roll_off power : List ℝ)
    (fmax min_step Bopt max_step f_dense_start f : ℝ)
    (hms : 0 < min_step) (hfmax : 0 < fmax)
    (hmax : 0 < max_step) (hBm : max_step < Bopt / 2)
    (hs : 0 < f_dense_start)
    (h1 : -fmax < f + f_dense_start) (h2 : f - f_dense_start < fmax)
    (hrs : ∀ x ∈ rs, 0 ≤ x) (hpw : ∀ x ∈ power, 0 ≤ x) :
    0 ≤ GN_point b2 Lspan alpha gam minFWM f_ch rs roll_off power
      fmax min_step Bopt max_step f_dense_start f := by
  obtain ⟨hlu, hposf, hnegf⟩ :=
    dense_window_outer_spec fmax min_step f_dense_start f hs hms hfmax h1 h2
  simp only [GN_point]
  apply mul_nonneg
  · nlinarith [mul_self_nonneg gam]
  · apply trapz_nonneg
    · have hwidth : 0 <
          |(dense_window_outer fmax min_step f_dense_start f).2 -
            (dense_window_outer fmax min_step f_dense_start f).1| :=
        abs_pos.mpr (by linarith)
      obtain ⟨hdf, _⟩ := dense_step_pos_le hms hwidth
      exact (get_freqarray_sorted f Bopt fmax max_step _ _ _ hmax hBm hlu hdf
        hposf hnegf).imp (fun hab => le_of_lt hab)
    · intro y hy
      rcases mem_zipWith hy with ⟨f1, hf1, g1v, hg1v, rfl⟩
      rcases List.mem_map.mp hg1v with ⟨z, hz, rfl⟩
      exact inner_int_nonneg alpha Lspan b2 minFWM fmax min_step Bopt max_step
        rs roll_off f_ch power f f1 _ hms hfmax hmax hBm hrs hpw
        (raised_cosine_comb_nonneg _ _ _ _ _ hrs hpw)

/-- Positivity of the linear loss coefficient. -/
lemma alpha_of_pos {a_dB : ℝ} (ha : 0 < a_dB) : 0 < alpha_of a_dB := by
  unfold alpha_of
  apply div_pos (div_pos ha (by norm_num))
  exact Real.logb_pos (by norm_num) (by linarith [Real.exp_one_gt_d9])

/-- The linear FWM threshold exceeds 1 for a positive dB threshold. -/
lemma minFWM_of_gt_one {x : ℝ} (hx : 0 < x) : 1 < minFWM_of x := by
  unfold minFWM_of
  exact (Real.one_lt_rpow_iff_of_pos (by norm_num)).mpr
    (Or.inl ⟨by norm_num, by linarith⟩)

/-- Positivity of the dense half-width. -/
lemma f_dense_start_of_pos {alpha b2 minFWM f2eval : ℝ}
    (ha : 0 < alpha) (hb2 : b2 ≠ 0) (hFWM : 1 < minFWM) (hf2 : 0 < f2eval) :
    0 < f_dense_start_of alpha b2 minFWM f2eval := by
  unfold f_dense_start_of
  apply abs_pos.mpr
  apply ne_of_gt
  apply div_pos _ hf2
  apply Real.sqrt_pos.mpr
  apply mul_pos
  · apply div_pos (pow_pos ha 2)
    have hpi : 0 < Real.pi := Real.pi_pos
    have hb : 0 < b2 * b2 := mul_self_pos.mpr hb2
    nlinarith [mul_pos (mul_pos (show (0 : ℝ) < 4 by norm_num)
      (pow_pos hpi 4)) hb]
  · linarith

/-- Claim C6, amended: for well-formed inputs (positive loss, nonzero
dispersion,
positive grid counts and threshold, at least `2 < n_grid_min * Nch` grid
density, a spectrum with positive maximal channel spacing and positive
`fmax`, nonnegative symbol rates and powers, and evaluation frequencies
within one dense half-width of the band), `GN_integral` returns exactly one
value per requested evaluation frequency, in order (it is the map of the
per-frequency engine over the request list), and every returned value is
nonnegative.  In the real-number model every value is automatically finite;
floating-point overflow lies outside the model.  Each hypothesis beyond the
claim's own enumeration guards a failure mode of the source: fewer than two
channels raise at `np.max` of an empty `np.diff` (the counterexample);
nonpositive spacing, a nonpositive dB threshold, or `max_step ≥ Bopt/2`
drive `np.log`/`np.sqrt` to nan or a nonpositive argument and `np.arange`
then raises on a nan extent; out-of-band evaluation frequencies break the
monotonicity of the outer grid on which nonnegativity rests. -/
theorem GN_integral_shape_nonneg (b2 Lspan a_dB gam : ℝ)
    (f_ch rs roll_off power : List ℝ) (Nch : ℝ) (mp : ModelParam)
    (ha : 0 < a_dB) (hb2 : b2 ≠ 0) (hfwm : 0 < mp.min_FWM_inv)
    (hng : 0 < mp.n_grid) (hngm : 0 < mp.n_grid_min)
    (hNch : 2 < mp.n_grid_min * Nch)
    (hf2 : 0 < f2eval_of f_ch) (hfmax : 0 < fmax_of f_ch rs)
    (hrs : ∀ x ∈ rs, 0 ≤ x) (hpw : ∀ x ∈ power, 0 ≤ x)
    (heval : ∀ f ∈ mp.f_array,
      f - f_dense_start_of (alpha_of a_dB) b2 (minFWM_of mp.min_FWM_inv)
          (f2eval_of f_ch) < fmax_of f_ch rs ∧
      -(fmax_of f_ch rs) < f + f_dense_start_of (alpha_of a_dB) b2
          (minFWM_of mp.min_FWM_inv) (f2eval_of f_ch)) :
    GN_integral b2 Lspan a_dB gam f_ch rs roll_off power Nch mp =
      mp.f_array.map (GN_point b2 Lspan (alpha_of a_dB) gam
        (minFWM_of mp.min_FWM_inv) f_ch rs roll_off power (fmax_of f_ch rs)
        (f2eval_of f_ch / mp.n_grid) (f2eval_of f_ch * Nch)
        (f2eval_of f_ch / mp.n_grid_min)
        (f_dense_start_of (alpha_of a_dB) b2 (minFWM_of mp.min_FWM_inv)
          (f2eval_of f_ch))) ∧
    (GN_integral b2 Lspan a_dB gam f_ch rs roll_off power Nch mp).length =
      mp.f_array.length ∧
    ∀ y ∈ GN_integral b2 Lspan a_dB gam f_ch rs roll_off power Nch mp, 0 ≤ y := by
  refine ⟨rfl, by simp [GN_integral], ?_⟩
  intro y hy
  simp only [GN_integral, List.mem_map] at hy
  rcases hy with ⟨f, hf, rfl⟩
  have hms : 0 < f2eval_of f_ch / mp.n_grid := div_pos hf2 hng
  have hmax : 0 < f2eval_of f_ch / mp.n_grid_min := div_pos hf2 hngm
  have hBm : f2eval_of f_ch / mp.n_grid_min < f2eval_of f_ch * Nch / 2 := by
    rw [div_lt_div_iff₀ hngm (by norm_num : (0 : ℝ) < 2)]
    nlinarith
  have hfds : 0 < f_dense_start_of (alpha_of a_dB) b2
      (minFWM_of mp.min_FWM_inv) (f2eval_of f_ch) :=
    f_dense_start_of_pos (alpha_of_pos ha) hb2 (minFWM_of_gt_one hfwm) hf2
  obtain ⟨h2, h1⟩ := heval f hf
  exact GN_point_nonneg b2 Lspan (alpha_of a_dB) gam (minFWM_of mp.min_FWM_inv)
    f_ch rs roll_off power (fmax_of f_ch rs) (f2eval_of f_ch / mp.n_grid)
    (f2eval_of f_ch * Nch) (f2eval_of f_ch / mp.n_grid_min)
    (f_dense_start_of (alpha_of a_dB) b2 (minFWM_of mp.min_FWM_inv)
      (f2eval_of f_ch)) f hms hfmax hmax hBm hfds h1 h2 hrs hpw

/-- Witness for claim C6: a two-channel comb at 0 and 1 THz, unit symbol
rates and powers, evaluated at `f = 0`. -/
theorem GN_integral_shape_nonneg_witness :
    GN_integral 1 1 1 1 [0, 1] [1, 1] [0, 0] [1, 1] 2 ⟨10, 1, 2, [0]⟩ =
      [(0 : ℝ)].map (GN_point 1 1 (alpha_of 1) 1 (minFWM_of 10) [0, 1] [1, 1]
        [0, 0] [1, 1] (fmax_of [0, 1] [1, 1]) (f2eval_of [0, 1] / 1)
        (f2eval_of [0, 1] * 2) (f2eval_of [0, 1] / 2)
        (f_dense_start_of (alpha_of 1) 1 (minFWM_of 10) (f2eval_of [0, 1]))) ∧
    (GN_integral 1 1 1 1 [0, 1] [1, 1] [0, 0] [1, 1] 2
      ⟨10, 1, 2, [0]⟩).length = 1 ∧
    ∀ y ∈ GN_integral 1 1 1 1 [0, 1] [1, 1] [0, 0] [1, 1] 2 ⟨10, 1, 2, [0]⟩,
      0 ≤ y := by
  have hfds : 0 ≤ f_dense_start_of (alpha_of 1) 1 (minFWM_of 10)
      (f2eval_of [0, 1]) := by
    unfold f_dense_start_of
    exact abs_nonneg _
  have hfmaxeq : fmax_of [0, 1] [1, 1] = 1 := by
    norm_num [fmax_of, List.getLastD]
  have hf2eq : f2eval_of [0, 1] = 1 := by
    norm_num [f2eval_of, diffList, listMax]
  exact GN_integral_shape_nonneg 1 1 1 1 [0, 1] [1, 1] [0, 0] [1, 1] 2
    ⟨10, 1, 2, [0]⟩ (by norm_num) (by norm_num) (by norm_num) (by norm_num)
    (by norm_num) (by norm_num)
    (by rw [hf2eq]; norm_num)
    (by rw [hfmaxeq]; norm_num)
    (by norm_num)
    (by norm_num)
    (by
      intro f hf
      simp only [List.mem_singleton] at hf
      subst hf
      rw [hfmaxeq]
      constructor
      · linarith
      · linarith)

/-- Claim C6, counterexample: the single-channel set `f_ch = [0]` with
matching one-entry companion arrays, positive loss and nonzero dispersion
is well formed by the claim's enumeration, yet the source raises
(`np.max` of the empty `np.diff([0])` is a ValueError) and returns no
values at all — not one value per requested evaluation frequency. -/
theorem C6_counterexample :
    GN_integral_checked 1 1 1 1 [0] [1] [0] [1] 1 ⟨10, 500, 4, [0]⟩ =
      none := by
  simp [GN_integral_checked, diffList]
